import Mathlib

/-!
A shallow embedding, over exact rational arithmetic, of the statistical
pairs-trading engine in src/simple_pairs_trading.py, together with proofs
about the claims of its design specification.

Modelling conventions:
* pandas Series become `List ℚ`; input series are assumed NaN-free (the spec
  requires forward-filled, aligned inputs), so `dropna` is the identity.
* float arithmetic is modelled by exact rational arithmetic; `np.log(2)` is
  embedded as the exact rational value of the IEEE-754 double nearest log 2.
* calls into external libraries (statsmodels add_constant, OLS and
  multipletests) are embedded from the behaviour of the library source:
  add_constant with its default has_constant="skip" returns the data
  UNCHANGED when a column is a nonzero constant (and raises ValueError on
  an empty array), so the subsequent read of model.params[1] raises
  IndexError there; OLS with the default pinv method returns the ordinary
  least-squares solution for a full-rank design and the minimum-norm
  pseudo-inverse solution for a rank-deficient design, never raising
  itself; multipletests computes Benjamini-Hochberg adjusted p-values, but
  raises ZeroDivisionError on an empty p-value list, because it evaluates
  1.0 / ntests before dispatching on the method.
* the Engle-Granger test `coint` is an opaque statistical oracle; the
  screener is parameterised by the matrix of raw p-values it produces.
* a raised Python exception is modelled as `Except.error` of a `PyErr`.
-/

attribute [local semireducible] Rat.mul Rat.inv Rat.add Rat.sub

namespace PairsTrading

/-- Python exceptions that the modelled code can raise. -/
inductive PyErr where
  | zeroDivision
  | overflow
  | indexError
  | valueError
deriving DecidableEq

instance instDecEqExcept {ε α : Type} [DecidableEq ε] [DecidableEq α] :
    DecidableEq (Except ε α) := fun a b =>
  match a, b with
  | Except.error x, Except.error y =>
      if h : x = y then isTrue (congrArg Except.error h)
      else isFalse (fun hc => h (Except.error.inj hc))
  | Except.error _, Except.ok _ => isFalse (fun hc => Except.noConfusion hc)
  | Except.ok _, Except.error _ => isFalse (fun hc => Except.noConfusion hc)
  | Except.ok x, Except.ok y =>
      if h : x = y then isTrue (congrArg Except.ok h)
      else isFalse (fun hc => h (Except.ok.inj hc))

/-! ## Basic numeric helpers -/

/-- Mean of a list of rationals (0 for the empty list, by rational division
by zero; the code never takes the mean of an empty window). -/
def qmean (l : List ℚ) : ℚ := l.sum / (l.length : ℚ)

/-- Sum of squared deviations from the mean. -/
def ssdOf (l : List ℚ) : ℚ := (l.map (fun x => (x - qmean l) * (x - qmean l))).sum

/-- Python `int(round x)` on a float: round half to even, as `np.round` and
the Python builtin `round` both do on floats. -/
def pyround (q : ℚ) : ℤ :=
  let f := ⌊q⌋
  let r := q - (f : ℚ)
  if r < 1/2 then f
  else if 1/2 < r then f + 1
  else if f % 2 = 0 then f else f + 1

/-- The IEEE-754 double closest to log 2, the exact value of `np.log(2)`. -/
def log2F : ℚ := 6243314768165359 / 9007199254740992

/-! ## statsmodels add_constant and OLS

`sm.add_constant(x)` with its default `has_constant="skip"` first checks
whether `x` already contains a constant column whose entries are ALL
nonzero (`np.ptp(x, axis=0) == 0` and `np.all(x != 0, axis=0)`); if so it
returns `x` unchanged, adding no ones column.  On an empty array `np.ptp`
raises ValueError (a zero-size reduction).  Then
`sm.OLS(y, ...).fit()` with the default pinv method returns
`params = pinv(X) @ y` without ever raising on rank deficiency, and the
program reads `model.params[1]`.  Three behaviours therefore arise for a
single regressor column `x`:
* `x` non-constant: the design `[1, x]` has full rank and `params[1]` is
  the textbook slope;
* `x` a NONZERO constant: add_constant skips the ones column, the design
  is the single column `x`, `params` has length 1, and `model.params[1]`
  raises IndexError;
* `x` identically zero (nonempty): the design is `[1, 0]`, rank deficient,
  the minimum-norm pseudo-inverse solution is `(mean y, 0)`, and
  `params[1]` is 0.
-/

/-- The two-parameter fit `(intercept, slope)` of `y` on `[1, x]` on the
inputs where the program obtains both parameters: the textbook
least-squares solution for the full-rank design (`x` non-constant), and
the minimum-norm pseudo-inverse solution `(mean y, 0)` for the
rank-deficient design `[1, 0]` arising from an all-zero regressor.  (For a
nonzero-constant regressor the program never reaches a two-parameter fit:
`model.params[1]` raises IndexError, modelled by `olsSlopeRun`, which is
the authority on which inputs return at all.) -/
def olsParams (y x : List ℚ) : ℚ × ℚ :=
  let n : ℚ := (x.length : ℚ)
  let sx := x.sum
  let sy := y.sum
  let sxx := (x.map (fun v => v * v)).sum
  let sxy := (List.zipWith (fun a b => a * b) x y).sum
  let d := n * sxx - sx * sx
  if d = 0 then (sy / n, 0)
  else ((sxx * sy - sx * sxy) / d, (n * sxy - sx * sy) / d)

/-- The run-level value of `sm.OLS(y, sm.add_constant(x)).fit().params[1]`:
ValueError for an empty regressor (np.ptp of a zero-size array), IndexError
for a nonzero-constant regressor (add_constant adds no ones column, so
`params` has length 1), the exact pseudo-inverse value 0 for an all-zero
regressor, and the textbook slope otherwise. -/
def olsSlopeRun (y x : List ℚ) : Except PyErr ℚ :=
  if x = [] then Except.error PyErr.valueError
  else if ∀ v ∈ x, v = x.headD 0 then
    if x.headD 0 = 0 then Except.ok 0
    else Except.error PyErr.indexError
  else Except.ok (olsParams y x).2

/-! ## calculate_spread (src/simple_pairs_trading.py lines 71-85) -/

/-- The truncation `S1[-min_len:]`, `S2[-min_len:]` of the two (NaN-free)
series to the common trailing sub-range of minimal length.  (For
`min_len = 0` Python would keep whole series, since `S1[-0:]` is `S1[0:]`,
and the subsequent regression on series of unequal length raises; we model
the empty intersection, which no claim depends on.) -/
def truncPair (S1 S2 : List ℚ) : List ℚ × List ℚ :=
  (S1.drop (S1.length - min S1.length S2.length),
   S2.drop (S2.length - min S1.length S2.length))

/-- `calculate_spread`, value level: OLS-fit `S1` on `[1, S2]` after
truncation, return `(spread, hedge)` where `spread = S1 - hedge * S2`
elementwise.  The intercept `params[0]` is computed by the fit but not
subtracted from the residual and not returned.  The run-level behaviour,
including the IndexError raised at `model.params[1]` when the truncated
`S2` is a nonzero constant, is `calculate_spread_run`; the two agree on
every input where the run returns (`calculate_spread_run_agrees`), and the
residual identities proved below hold for any hedge value. -/
def calculate_spread (S1 S2 : List ℚ) : List ℚ × ℚ :=
  let T1 := (truncPair S1 S2).1
  let T2 := (truncPair S1 S2).2
  let hedge := (olsParams T1 T2).2
  (List.zipWith (fun a b => a - hedge * b) T1 T2, hedge)

/-- `calculate_spread`, run level: the fit and the `model.params[1]` read,
with the add_constant crashes modelled as errors. -/
def calculate_spread_run (S1 S2 : List ℚ) : Except PyErr (List ℚ × ℚ) :=
  match olsSlopeRun (truncPair S1 S2).1 (truncPair S1 S2).2 with
  | Except.error e => Except.error e
  | Except.ok hedge =>
      Except.ok (List.zipWith (fun a b => a - hedge * b)
        (truncPair S1 S2).1 (truncPair S1 S2).2, hedge)

/-- The intercept `model.params[0]` of the regression run inside
`calculate_spread` (computed by the code but not returned). -/
def olsInterceptOf (S1 S2 : List ℚ) : ℚ :=
  (olsParams (truncPair S1 S2).1 (truncPair S1 S2).2).1

/-! ## half_life (lines 94-102) and the main-loop guard (lines 176-179) -/

/-- `spread_lag` after `np.roll(spread, 1)` and dropping the first (wrapped)
entry: the original series without its last element. -/
def lagOf (spread : List ℚ) : List ℚ := spread.dropLast

/-- `spread_ret` after the same slicing: first differences of the spread. -/
def retOf (spread : List ℚ) : List ℚ :=
  List.zipWith (fun cur prev => cur - prev) (spread.drop 1) spread.dropLast

/-- `half_life`: the mean-reversion coefficient is `model.params[1]` of
the regression of the spread differences on the lagged spread, so at run
level it inherits the IndexError of a nonzero-constant lagged spread and
the ValueError of an empty one.  When the coefficient is exactly zero the
float quotient `-np.log(2) / 0.0` is `-inf` (the RuntimeWarning is
suppressed by the global warning filter) and `int(round(-inf))` raises
OverflowError; otherwise the half-life is `int(round(-np.log(2)/phi))`. -/
def half_life (spread : List ℚ) : Except PyErr ℤ :=
  match olsSlopeRun (retOf spread) (lagOf spread) with
  | Except.error e => Except.error e
  | Except.ok phi =>
      if phi = 0 then Except.error PyErr.overflow
      else Except.ok (pyround (-log2F / phi))

/-- The per-pair decision of the main loop after the stationarity check has
passed (lines 176-179): compute the half-life and feed it forward as the
signal-generation window only when it is positive.  `Except.error` models an
uncaught exception aborting the run, `Except.ok none` a rejected pair, and
`Except.ok (some w)` a pair fed forward with window `w`. -/
def mainPairWindow (spread : List ℚ) : Except PyErr (Option ℤ) :=
  match half_life spread with
  | Except.error e => Except.error e
  | Except.ok hl => Except.ok (if 0 < hl then some hl else none)

/-! ## generate_signals (lines 105-114)

The z-score at index `t` uses the rolling window of the last `w`
observations ending at `t` (NaN for `t < w - 1`), its mean, and its sample
standard deviation (`ddof = 1`; NaN for `w = 1`, hence `w ≤ 1` is the NaN
case below).  The square root is irrational, so the band comparisons of the
code, which are all against the constants ±1 and ±0.5, are embedded by
their exact square-free equivalents: with `num = spread t - mean` and
`ssd` the sum of squared deviations of the window,
`z > 1 ↔ 0 < num ∧ ssd < num² (w-1)`, and so on.  When the window is
constant the standard deviation is 0 and then `num = 0` as well, so the
float z-score is `0/0 = NaN`: the NaN band.  A NaN z-score matches none of
the three masks, leaving the signal NaN there, and the trailing
`fillna(method="ffill").fillna(0)` then carries the previous signal
forward (0 before any signal exists). -/

/-- The band of a z-score value relevant to the signal masks. -/
inductive ZBand where
  | nanB
  | shortE
  | longE
  | exitE
  | holdE
deriving DecidableEq

/-- Band classification of a (non-NaN) z-score value. -/
def zBandOfQ (z : ℚ) : ZBand :=
  if 1 < z then ZBand.shortE
  else if z < -1 then ZBand.longE
  else if -(1/2) < z ∧ z < 1/2 then ZBand.exitE
  else ZBand.holdE

/-- The rolling window of width `w` ending at index `t`. -/
def windowAt (spread : List ℚ) (w t : ℕ) : List ℚ :=
  (spread.take (t + 1)).drop (t + 1 - w)

/-- Band of the rolling z-score of `spread` at index `t`, window `w`,
via the exact square-free comparisons described above. -/
def zBandAt (spread : List ℚ) (w t : ℕ) : ZBand :=
  if t + 1 < w ∨ w ≤ 1 then ZBand.nanB
  else
    let win := windowAt spread w t
    let m := qmean win
    let ssd := ssdOf win
    let num := spread.getD t 0 - m
    if ssd = 0 then ZBand.nanB
    else if 0 < num ∧ ssd < num * num * ((w : ℚ) - 1) then ZBand.shortE
    else if num < 0 ∧ ssd < num * num * ((w : ℚ) - 1) then ZBand.longE
    else if 4 * (num * num) * ((w : ℚ) - 1) < ssd then ZBand.exitE
    else ZBand.holdE

/-- Bands of the whole rolling z-score series. -/
def zBands (spread : List ℚ) (w : ℕ) : List ZBand :=
  (List.range spread.length).map (zBandAt spread w)

/-- One step of the masked assignment plus forward fill: an entry band
overwrites the signal, the exit band resets it to 0, and a NaN or held
z-score keeps the previous signal. -/
def signalStep (prev : ℤ) (b : ZBand) : ℤ :=
  match b with
  | ZBand.shortE => -1
  | ZBand.longE => 1
  | ZBand.exitE => 0
  | ZBand.nanB => prev
  | ZBand.holdE => prev

/-- Forward-fill accumulation of `signalStep` over a band list. -/
def signalsAux (prev : ℤ) : List ZBand → List ℤ
  | [] => []
  | b :: rest =>
    let s := signalStep prev b
    s :: signalsAux s rest

/-- `generate_signals` (signal component): bands of the rolling z-score,
masked assignments, forward fill, and leading fill with 0. -/
def generate_signals (spread : List ℚ) (w : ℕ) : List ℤ :=
  signalsAux 0 (zBands spread w)

/-- The signal rule applied to an explicitly given (NaN-free) z-score
sequence, as in the concrete scenario of the spec. -/
def signalsFromZ (zs : List ℚ) : List ℤ :=
  signalsAux 0 (zs.map zBandOfQ)

/-! ## backtest (lines 117-139) -/

/-- `pct_change().fillna(0)`.  (Rational division by zero is 0 where Python
float division of a nonzero numerator by zero would give ±inf; the
truncation claims do not depend on the value of any return.) -/
def pct_change (s : List ℚ) : List ℚ :=
  if s = [] then []
  else 0 :: List.zipWith (fun prev cur => (cur - prev) / prev) s.dropLast (s.drop 1)

/-- `diff().fillna(0)`: consecutive differences with a leading 0. -/
def diffFill (s : List ℚ) : List ℚ :=
  if s = [] then []
  else 0 :: List.zipWith (fun prev cur => cur - prev) s.dropLast (s.drop 1)

/-- Net per-period portfolio returns: position `-signal` in leg 1 and
`signal * hedge` in leg 2, minus transaction costs proportional to the
absolute traded quantity times the absolute per-leg return. -/
def portReturns (S1 S2 : List ℚ) (hedge : ℚ) (sigs : List ℤ) (tc : ℚ) : List ℚ :=
  let pos1 := sigs.map (fun s => -(s : ℚ))
  let pos2 := sigs.map (fun s => (s : ℚ) * hedge)
  let r1 := pct_change S1
  let r2 := pct_change S2
  let gross := List.zipWith (fun a b => a + b)
    (List.zipWith (fun a b => a * b) pos1 r1)
    (List.zipWith (fun a b => a * b) pos2 r2)
  let t1 := diffFill pos1
  let t2 := diffFill pos2
  let costs := List.zipWith (fun a b => a + b)
    (List.zipWith (fun a b => |a| * |b|) t1 r1)
    (List.zipWith (fun a b => |a| * |b|) t2 r2)
  List.zipWith (fun g c => g - c * tc) gross costs

/-- Running product of `1 + r` with accumulator `acc`. -/
def cumprodAux (acc : ℚ) : List ℚ → List ℚ
  | [] => []
  | r :: rest =>
    let c := acc * (1 + r)
    c :: cumprodAux c rest

/-- `(1 + portfolio_returns).cumprod()`. -/
def cumulativeCurve (S1 S2 : List ℚ) (hedge : ℚ) (sigs : List ℤ) (tc : ℚ) : List ℚ :=
  cumprodAux 1 (portReturns S1 S2 hedge sigs tc)

/-- Running maximum accumulation. -/
def cummaxAux (m : ℚ) : List ℚ → List ℚ
  | [] => []
  | a :: rest =>
    let m2 := max m a
    m2 :: cummaxAux m2 rest

/-- `cummax()` of a series. -/
def cummaxList : List ℚ → List ℚ
  | [] => []
  | a :: rest => a :: cummaxAux a rest

/-- `(cummax - cum) / cummax`, the running drawdown series. -/
def drawdowns (cum : List ℚ) : List ℚ :=
  List.zipWith (fun m c => (m - c) / m) (cummaxList cum) cum

/-- Index of the first entry strictly greater than `q`, if any. -/
def firstGt (q : ℚ) : List ℚ → Option ℕ
  | [] => none
  | a :: rest => if q < a then some 0 else (firstGt q rest).map (fun i => i + 1)

/-- `backtest`: cumulative-return curve, truncated at the first index whose
drawdown strictly exceeds `stop` (label-based pandas slicing keeps the
breach point itself), and the final value `curve[-1] * init`.  (For an
empty signal list Python would raise on `iloc[-1]`; the final value is
modelled with default 0 there, which no claim depends on.) -/
def backtest (S1 S2 : List ℚ) (hedge : ℚ) (sigs : List ℤ) (init tc stop : ℚ) :
    List ℚ × ℚ :=
  let cum := cumulativeCurve S1 S2 hedge sigs tc
  let dd := drawdowns cum
  let curve := match firstGt stop dd with
    | none => cum
    | some i => cum.take (i + 1)
  (curve, curve.getLast?.getD 0 * init)

/-! ## find_cointegrated_pairs (lines 40-68)

The screener collects the raw Engle-Granger p-value of every unordered
pair `(i, j)` with `i < j` (the test itself is an external statistical
oracle, abstracted as the parameter `pv`), feeds the flat list to
`multipletests(..., method="fdr_bh")`, and keeps the pairs whose corrected
p-value is strictly below the significance level.

`multipletests` evaluates `1.0 / ntests` before dispatching on the method,
so it raises ZeroDivisionError when the p-value list is empty, which
happens exactly when fewer than 2 instruments are supplied.  Otherwise,
for the fdr_bh method, the adjusted p-value at sorted position `i` of `m`
is `min 1 (min over j ≥ i of m * p_(j) / (j + 1))` (sorted ascending,
0-indexed): the raw scaled value divided by its empirical-cdf factor,
suffix-minimised from the largest p-value down, clipped at 1, and scattered
back to the original order.  The sorted position is embedded directly as a
rank (ties broken by original position; numpy argsort is unstable on ties,
but any tie order assigns the same multiset of adjusted values within a tie
block, and every property proved here is invariant under that choice). -/

/-- Rank of index `k` in the ascending stable sort of `ps`: the number of
strictly smaller values anywhere plus the number of equal values earlier. -/
def bhRank (ps : List ℚ) (k : ℕ) : ℕ :=
  ((Finset.range ps.length).filter (fun u => ps.getD u 0 < ps.getD k 0)).card +
  ((Finset.range k).filter (fun u => ps.getD u 0 = ps.getD k 0)).card

/-- Minimum of a list of rationals, 1 for the empty list. -/
def listMin : List ℚ → ℚ
  | [] => 1
  | [a] => a
  | a :: b :: rest => min a (listMin (b :: rest))

/-- Benjamini-Hochberg adjusted p-value of the entry at index `k` of `ps`:
the clipped suffix minimum, over all entries of rank at least the rank of
`k`, of the value scaled by `m / (rank + 1)`. -/
def bhAdjusted (ps : List ℚ) (k : ℕ) : ℚ :=
  min 1 (listMin (((List.range ps.length).filter
      (fun l => bhRank ps k ≤ bhRank ps l)).map
    (fun l => (ps.length : ℚ) * ps.getD l 0 / ((bhRank ps l : ℚ) + 1))))

/-- The loop order of the screener: pairs `(i, j)` with `i < j < n`,
outer loop on `i`. -/
def pairIndices (n : ℕ) : List (ℕ × ℕ) :=
  ((List.range n).map (fun i =>
    ((List.range n).filter (fun j => i < j)).map (fun j => (i, j)))).flatten

/-- `find_cointegrated_pairs`: the pairs whose BH-corrected p-value is
strictly below the significance level, given the raw p-value oracle `pv`
and `n` instruments.  (The p-value matrix also returned by the source is
omitted; no claim concerns it.) -/
def find_cointegrated_pairs (pv : ℕ → ℕ → ℚ) (n : ℕ) (significance : ℚ) :
    Except PyErr (List (ℕ × ℕ)) :=
  let idx := pairIndices n
  let pvalues := idx.map (fun q => pv q.1 q.2)
  if pvalues.length = 0 then Except.error PyErr.zeroDivision
  else Except.ok (((List.range pvalues.length).filter
      (fun k => bhAdjusted pvalues k < significance)).map
    (fun k => idx.getD k (0, 0)))

/-! ## Pair selection (lines 203-205) -/

/-- One backtest record of the main loop: pair, half-life, final return. -/
structure BTResult where
  pairId : ℕ × ℕ
  hl : ℤ
  finalRet : ℚ
deriving DecidableEq

/-- Default record used only as the `getD` fallback in statements. -/
def dres : BTResult := ⟨(0, 0), 0, 0⟩

/-- The accumulator of Python `max(results, key=...)`: scan the list,
replacing the current best only on a strictly larger key, so the first
maximal element wins. -/
def bestFold (cur : BTResult) : List BTResult → BTResult
  | [] => cur
  | x :: rest => bestFold (if cur.finalRet < x.finalRet then x else cur) rest

/-- `max(results, key=lambda x: x["final_return"])` guarded by
`if results:`. -/
def select_best : List BTResult → Option BTResult
  | [] => none
  | r :: rest => some (bestFold r rest)

/-! ## Helper lemmas -/

theorem getD_mem {α : Type} (l : List α) (k : ℕ) (d : α) (h : k < l.length) :
    l.getD k d ∈ l := by
  induction l generalizing k with
  | nil => simp at h
  | cons a rest ih =>
    cases k with
    | zero => simp
    | succ k' =>
      simp only [List.getD_cons_succ]
      exact List.mem_cons_of_mem a (ih k' (by simpa using h))

theorem getD_map_pq (l : List (ℕ × ℕ)) (f : ℕ × ℕ → ℚ) (k : ℕ)
    (h : k < l.length) : (l.map f).getD k 0 = f (l.getD k (0, 0)) := by
  induction l generalizing k with
  | nil => simp at h
  | cons a rest ih =>
    cases k with
    | zero => simp
    | succ k' => simpa using ih k' (by simpa using h)

theorem getD_zipWith (f : ℚ → ℚ → ℚ) (l1 l2 : List ℚ) (i : ℕ)
    (h1 : i < l1.length) (h2 : i < l2.length) :
    (List.zipWith f l1 l2).getD i 0 = f (l1.getD i 0) (l2.getD i 0) := by
  induction l1 generalizing l2 i with
  | nil => simp at h1
  | cons a t ih =>
    cases l2 with
    | nil => simp at h2
    | cons b t2 =>
      cases i with
      | zero => simp
      | succ i' =>
        simpa using ih t2 i' (by simpa using h1) (by simpa using h2)

theorem sum_of_const (l : List ℚ) (c : ℚ) (h : ∀ x ∈ l, x = c) :
    l.sum = (l.length : ℚ) * c := by
  induction l with
  | nil => simp
  | cons a rest ih =>
    have ha : a = c := h a (by simp)
    have hr := ih (fun x hx => h x (List.mem_cons_of_mem a hx))
    simp only [List.sum_cons, List.length_cons, hr, ha]
    push_cast
    ring

/-! ## Signal lemmas and claims C2, C7 -/

theorem signalsAux_len (prev : ℤ) (l : List ZBand) :
    (signalsAux prev l).length = l.length := by
  induction l generalizing prev with
  | nil => rfl
  | cons b rest ih => simp [signalsAux, ih]

theorem signalsAux_step (l : List ZBand) :
    ∀ (prev : ℤ) (i : ℕ), i + 1 < l.length →
      (signalsAux prev l).getD (i + 1) 0 =
        signalStep ((signalsAux prev l).getD i 0) (l.getD (i + 1) ZBand.nanB) := by
  induction l with
  | nil => intro prev i h; simp at h
  | cons b rest ih =>
    intro prev i h
    cases i with
    | zero =>
      cases rest with
      | nil => simp at h
      | cons c r => rfl
    | succ i' =>
      have h' : i' + 1 < rest.length := by simpa using h
      simpa [signalsAux] using ih (signalStep prev b) i' h'

theorem generate_signals_len (spread : List ℚ) (w : ℕ) :
    (generate_signals spread w).length = (zBands spread w).length :=
  signalsAux_len 0 _

/-- C2 (amended): once the signal is in a non-zero state, any change of
state at the next timestamp is forced by the z-score band there: either the
z-score re-enters the exit band (-0.5, 0.5) and the signal drops to 0, or
the z-score crosses an entry threshold and the signal jumps to that entry
state (possibly flipping directly from +1 to -1 or from -1 to +1 without
being 0 in between). -/
theorem C2_hysteresis_amended (spread : List ℚ) (w t : ℕ)
    (h1 : t + 1 < (generate_signals spread w).length)
    (_h2 : (generate_signals spread w).getD t 0 ≠ 0)
    (h3 : (generate_signals spread w).getD (t + 1) 0 ≠
      (generate_signals spread w).getD t 0) :
    ((zBands spread w).getD (t + 1) ZBand.nanB = ZBand.exitE ∧
      (generate_signals spread w).getD (t + 1) 0 = 0) ∨
    ((zBands spread w).getD (t + 1) ZBand.nanB = ZBand.shortE ∧
      (generate_signals spread w).getD (t + 1) 0 = -1) ∨
    ((zBands spread w).getD (t + 1) ZBand.nanB = ZBand.longE ∧
      (generate_signals spread w).getD (t + 1) 0 = 1) := by
  have hlen : t + 1 < (zBands spread w).length := by
    rw [← generate_signals_len spread w]; exact h1
  have hstep := signalsAux_step (zBands spread w) 0 t hlen
  rw [generate_signals] at h3 ⊢
  cases hb : (zBands spread w).getD (t + 1) ZBand.nanB with
  | nanB => rw [hb] at hstep; exact absurd hstep h3
  | holdE => rw [hb] at hstep; exact absurd hstep h3
  | exitE => rw [hb] at hstep; exact Or.inl ⟨rfl, hstep⟩
  | shortE => rw [hb] at hstep; exact Or.inr (Or.inl ⟨rfl, hstep⟩)
  | longE => rw [hb] at hstep; exact Or.inr (Or.inr ⟨rfl, hstep⟩)

/-- C2 witness: the amended theorem applied to the spread
[0, 0, -10, 100] with window 3 at t = 2, where the signal is +1 and the
next z-score crosses the short entry threshold. -/
theorem C2_hysteresis_witness :
    (2 + 1 < (generate_signals [0, 0, -10, 100] 3).length ∧
      (generate_signals [0, 0, -10, 100] 3).getD 2 0 ≠ 0 ∧
      (generate_signals [0, 0, -10, 100] 3).getD 3 0 ≠
        (generate_signals [0, 0, -10, 100] 3).getD 2 0) ∧
    (((zBands [0, 0, -10, 100] 3).getD 3 ZBand.nanB = ZBand.exitE ∧
        (generate_signals [0, 0, -10, 100] 3).getD 3 0 = 0) ∨
      ((zBands [0, 0, -10, 100] 3).getD 3 ZBand.nanB = ZBand.shortE ∧
        (generate_signals [0, 0, -10, 100] 3).getD 3 0 = -1) ∨
      ((zBands [0, 0, -10, 100] 3).getD 3 ZBand.nanB = ZBand.longE ∧
        (generate_signals [0, 0, -10, 100] 3).getD 3 0 = 1)) :=
  ⟨⟨by decide, by decide, by decide⟩,
    C2_hysteresis_amended [0, 0, -10, 100] 3 2 (by decide) (by decide) (by decide)⟩

/-- C2 counterexample: on the spread [0, 0, -10, 100] with window 3 the
z-score goes from below -1 (at t = 2) to above +1 (at t = 3), so the signal
flips directly from +1 to -1 between consecutive timestamps without being 0
in between, and without the z-score entering the exit band. -/
theorem C2_hysteresis_cex :
    (generate_signals [0, 0, -10, 100] 3).getD 2 0 = 1 ∧
    (generate_signals [0, 0, -10, 100] 3).getD 3 0 = -1 ∧
    (zBands [0, 0, -10, 100] 3).getD 3 ZBand.nanB ≠ ZBand.exitE := by
  decide

/-! ## Backtest truncation: claim C3 -/

theorem firstGt_eq_some (q : ℚ) (l : List ℚ) :
    ∀ i : ℕ, firstGt q l = some i →
      i < l.length ∧ q < l.getD i 0 ∧ ∀ j, j < i → ¬ q < l.getD j 0 := by
  induction l with
  | nil => intro i h; simp [firstGt] at h
  | cons a rest ih =>
    intro i h
    by_cases hq : q < a
    · simp only [firstGt, if_pos hq, Option.some.injEq] at h
      subst h
      exact ⟨by simp, by simpa using hq, by omega⟩
    · simp only [firstGt, if_neg hq, Option.map_eq_some'] at h
      obtain ⟨i', hi', rfl⟩ := h
      obtain ⟨h1, h2, h3⟩ := ih i' hi'
      refine ⟨by simpa using h1, by simpa using h2, ?_⟩
      intro j hj
      cases j with
      | zero => simpa using hq
      | succ j' =>
        simpa using h3 j' (by omega)

/-- C3: the cumulative-return curve reported by `backtest` contains no
point strictly after the first index at which the running drawdown strictly
exceeds the stop-loss threshold: that index is a genuine first breach
(every earlier drawdown is within the threshold), and every index present
in the reported curve is at most the breach index.  Truncation is applied
once, after the whole curve is computed, so it cannot be undone later in
the run. -/
theorem C3_backtest_truncation (S1 S2 : List ℚ) (hedge init tc stop : ℚ)
    (sigs : List ℤ) (i : ℕ)
    (hb : firstGt stop (drawdowns (cumulativeCurve S1 S2 hedge sigs tc)) = some i) :
    stop < (drawdowns (cumulativeCurve S1 S2 hedge sigs tc)).getD i 0 ∧
    (∀ j, j < i → ¬ stop < (drawdowns (cumulativeCurve S1 S2 hedge sigs tc)).getD j 0) ∧
    (∀ j, j < ((backtest S1 S2 hedge sigs init tc stop).1).length → j ≤ i) := by
  obtain ⟨h1, h2, h3⟩ := firstGt_eq_some stop _ i hb
  refine ⟨h2, h3, ?_⟩
  intro j hj
  have hcurve : (backtest S1 S2 hedge sigs init tc stop).1 =
      (cumulativeCurve S1 S2 hedge sigs tc).take (i + 1) := by
    simp [backtest, hb]
  rw [hcurve, List.length_take] at hj
  omega

/-- C3 witness: the theorem applied to a two-period backtest losing half
its value in the second period with the default cost rate and stop-loss,
whose drawdown series is [0, 1/2] and first breach index is 1. -/
theorem C3_backtest_truncation_witness :
    firstGt (1/20) (drawdowns (cumulativeCurve [1, 1/2] [1, 1] 0 [-1, -1] (1/2000))) =
      some 1 ∧
    (1/20 : ℚ) <
      (drawdowns (cumulativeCurve [1, 1/2] [1, 1] 0 [-1, -1] (1/2000))).getD 1 0 :=
  ⟨by decide,
    (C3_backtest_truncation [1, 1/2] [1, 1] 0 1 (1/2000) (1/20) [-1, -1] 1 (by decide)).1⟩

/-- C7 counterexample: the z-score sequence [0.2, 1.3, 1.1, 0.4, -1.4, 0.1]
does not produce the signals [0, -1, -1, -1, 1, 1] claimed by the spec:
the z-scores 0.4 and 0.1 lie inside the exit band (-0.5, 0.5) and reset the
signal to 0. -/
theorem C7_scenario_cex :
    signalsFromZ [1/5, 13/10, 11/10, 2/5, -7/5, 1/10] ≠ [0, -1, -1, -1, 1, 1] := by
  decide

/-- C7 (amended): the z-score sequence [0.2, 1.3, 1.1, 0.4, -1.4, 0.1] with
entry threshold 1 and exit threshold 0.5 yields exactly the signals
[0, -1, -1, 0, 1, 0]. -/
theorem C7_scenario_amended :
    signalsFromZ [1/5, 13/10, 11/10, 2/5, -7/5, 1/10] = [0, -1, -1, 0, 1, 0] := by
  decide

/-! ## Spread estimator: claims C4, C5, C10 -/

theorem truncPair_fst_length (S1 S2 : List ℚ) :
    (truncPair S1 S2).1.length = min S1.length S2.length := by
  simp only [truncPair, List.length_drop]
  omega

theorem truncPair_snd_length (S1 S2 : List ℚ) :
    (truncPair S1 S2).2.length = min S1.length S2.length := by
  simp only [truncPair, List.length_drop]
  omega

theorem zip_recon (hq : ℚ) (T1 : List ℚ) :
    ∀ T2 : List ℚ, T1.length = T2.length →
      List.zipWith (fun b s => hq * b + s) T2
        (List.zipWith (fun a b => a - hq * b) T1 T2) = T1 := by
  induction T1 with
  | nil =>
    intro T2 h
    cases T2 with
    | nil => rfl
    | cons b t2 => simp at h
  | cons a t ih =>
    intro T2 h
    cases T2 with
    | nil => simp at h
    | cons b t2 =>
      simp only [List.zipWith_cons_cons, List.cons.injEq]
      exact ⟨by ring, ih t2 (by simpa using h)⟩

/-- C4 (amended): reconstructing the truncated `S1` as
`hedge * S2 + spread`, without adding the intercept, reproduces the
truncated `S1` exactly: the spread returned by `calculate_spread` is
`S1 - hedge * S2` with the regression intercept left inside it. -/
theorem C4_roundtrip_amended (S1 S2 : List ℚ) :
    List.zipWith (fun b s => (calculate_spread S1 S2).2 * b + s)
      (truncPair S1 S2).2 (calculate_spread S1 S2).1 = (truncPair S1 S2).1 := by
  have h : (truncPair S1 S2).1.length = (truncPair S1 S2).2.length := by
    rw [truncPair_fst_length, truncPair_snd_length]
  simpa only [calculate_spread] using
    zip_recon (olsParams (truncPair S1 S2).1 (truncPair S1 S2).2).2
      (truncPair S1 S2).1 (truncPair S1 S2).2 h

/-- C4 counterexample: for S1 = [1, 3] and S2 = [0, 1] the regression
gives hedge 2, intercept 1 and spread [1, 1], and reconstructing S1 as
`hedge * S2 + spread + intercept` yields [2, 4], not the original [1, 3]:
the intercept must not be added back, because the code never subtracted it
from the residual. -/
theorem C4_roundtrip_cex :
    List.zipWith (fun b s => (calculate_spread [1, 3] [0, 1]).2 * b + s +
        olsInterceptOf [1, 3] [0, 1])
      [0, 1] (calculate_spread [1, 3] [0, 1]).1 ≠ [1, 3] := by
  decide

/-- C10: the spread returned by `calculate_spread` has the length of the
common trailing range of minimal length, and on that range satisfies
`S1 = hedge * S2 + spread` elementwise and exactly, with no intercept
term: the regression intercept is not subtracted from the residual, so the
returned spread absorbs it. -/
theorem C10_spread_absorbs_intercept (S1 S2 : List ℚ) :
    (calculate_spread S1 S2).1.length = min S1.length S2.length ∧
    ∀ i, i < (calculate_spread S1 S2).1.length →
      (truncPair S1 S2).1.getD i 0 =
        (calculate_spread S1 S2).2 * (truncPair S1 S2).2.getD i 0 +
          (calculate_spread S1 S2).1.getD i 0 := by
  have hlen1 := truncPair_fst_length S1 S2
  have hlen2 := truncPair_snd_length S1 S2
  have hlen : (calculate_spread S1 S2).1.length = min S1.length S2.length := by
    simp only [calculate_spread, List.length_zipWith]
    rw [hlen1, hlen2]
    omega
  refine ⟨hlen, ?_⟩
  intro i hi
  rw [hlen] at hi
  have h1 : i < (truncPair S1 S2).1.length := by omega
  have h2 : i < (truncPair S1 S2).2.length := by omega
  have hz : (calculate_spread S1 S2).1.getD i 0 =
      (truncPair S1 S2).1.getD i 0 -
        (calculate_spread S1 S2).2 * (truncPair S1 S2).2.getD i 0 := by
    simpa only [calculate_spread] using
      getD_zipWith (fun a b => a - (olsParams (truncPair S1 S2).1 (truncPair S1 S2).2).2 * b)
        (truncPair S1 S2).1 (truncPair S1 S2).2 i h1 h2
  rw [hz]
  ring

/-- C10 witness: the elementwise identity evaluated at S1 = [1, 3],
S2 = [0, 1] and index 0. -/
theorem C10_spread_absorbs_intercept_witness :
    (calculate_spread [1, 3] [0, 1]).1.length =
      min (List.length ([1, 3] : List ℚ)) (List.length ([0, 1] : List ℚ)) ∧
    (truncPair [1, 3] [0, 1]).1.getD 0 0 =
      (calculate_spread [1, 3] [0, 1]).2 * (truncPair [1, 3] [0, 1]).2.getD 0 0 +
        (calculate_spread [1, 3] [0, 1]).1.getD 0 0 :=
  ⟨(C10_spread_absorbs_intercept [1, 3] [0, 1]).1,
    (C10_spread_absorbs_intercept [1, 3] [0, 1]).2 0 (by decide)⟩

theorem headD_of_const (l : List ℚ) (c : ℚ) (hne : l ≠ []) (hc : ∀ x ∈ l, x = c) :
    l.headD 0 = c := by
  cases l with
  | nil => exact absurd rfl hne
  | cons a t => exact hc a (by simp)

/-- On every input where the run-level fit returns a slope at all, that
slope is the value-level `olsParams` slope: for an all-zero regressor the
two-parameter pseudo-inverse fit has slope 0, and for a non-constant
regressor both are the textbook slope. -/
theorem olsSlopeRun_agrees (y x : List ℚ) (h : ℚ)
    (hok : olsSlopeRun y x = Except.ok h) : h = (olsParams y x).2 := by
  rw [olsSlopeRun] at hok
  by_cases hx : x = []
  · rw [if_pos hx] at hok
    exact absurd hok (by simp)
  · rw [if_neg hx] at hok
    by_cases hcon : ∀ v ∈ x, v = x.headD 0
    · rw [if_pos hcon] at hok
      by_cases h0 : x.headD 0 = 0
      · rw [if_pos h0, Except.ok.injEq] at hok
        have hzero : ∀ v ∈ x, v = 0 := by
          intro v hv
          rw [hcon v hv, h0]
        have hsx : x.sum = (x.length : ℚ) * 0 := sum_of_const x 0 hzero
        have hsxx : (x.map (fun v => v * v)).sum = 0 := by
          have hm : ∀ w ∈ x.map (fun v => v * v), w = 0 := by
            intro w hw
            obtain ⟨v, hv, rfl⟩ := List.mem_map.mp hw
            rw [hzero v hv]
            ring
          rw [sum_of_const _ 0 hm]
          ring
        have hd : (x.length : ℚ) * (x.map (fun v => v * v)).sum - x.sum * x.sum = 0 := by
          rw [hsxx, hsx]
          ring
        rw [← hok, olsParams]
        simp only [hd, eq_self_iff_true, if_true]
      · rw [if_neg h0] at hok
        exact absurd hok (by simp)
    · rw [if_neg hcon, Except.ok.injEq] at hok
      exact hok.symm

/-- On every input where the run-level estimator returns, it returns
exactly the value-level `calculate_spread`. -/
theorem calculate_spread_run_agrees (S1 S2 : List ℚ) (p : List ℚ × ℚ)
    (hok : calculate_spread_run S1 S2 = Except.ok p) :
    p = calculate_spread S1 S2 := by
  cases hrun : olsSlopeRun (truncPair S1 S2).1 (truncPair S1 S2).2 with
  | error e =>
    simp only [calculate_spread_run, hrun] at hok
    exact absurd hok (by simp)
  | ok h =>
    simp only [calculate_spread_run, hrun, Except.ok.injEq] at hok
    rw [← hok, calculate_spread, olsSlopeRun_agrees _ _ h hrun]

/-- C5 (amended): on a degenerate (zero-variance) regressor the estimator
never raises an `EstimationError` — no such error type exists anywhere in
the code.  For `S2` constant with NONZERO value `c` (after truncation,
nonempty), `sm.add_constant` with its default `has_constant="skip"`
detects the nonzero constant column and adds no ones column, the fit
returns a single parameter, and `model.params[1]` raises an uncaught
IndexError: an accidental crash, not a typed estimation failure and not a
hedge ratio.  (For `S2` identically zero the fit does return, with slope
parameter 0: see `olsSlopeRun`.) -/
theorem C5_degenerate_amended (S1 S2 : List ℚ) (c : ℚ)
    (hne : (truncPair S1 S2).2 ≠ [])
    (hc : ∀ x ∈ (truncPair S1 S2).2, x = c) (hc0 : c ≠ 0) :
    calculate_spread_run S1 S2 = Except.error PyErr.indexError := by
  have hhead : (truncPair S1 S2).2.headD 0 = c := headD_of_const _ c hne hc
  have hconst : ∀ v ∈ (truncPair S1 S2).2, v = (truncPair S1 S2).2.headD 0 := by
    intro v hv
    rw [hhead]
    exact hc v hv
  have hrun : olsSlopeRun (truncPair S1 S2).1 (truncPair S1 S2).2 =
      Except.error PyErr.indexError := by
    rw [olsSlopeRun, if_neg hne, if_pos hconst, hhead, if_neg hc0]
  simp only [calculate_spread_run, hrun]

/-- C5 witness: the amended theorem applied to S1 = [1, 3] and the
constant S2 = [2, 2]: the run crashes with IndexError. -/
theorem C5_degenerate_witness :
    ((truncPair [1, 3] [2, 2]).2 ≠ [] ∧
      (∀ x ∈ (truncPair [1, 3] [2, 2]).2, x = 2) ∧ (2 : ℚ) ≠ 0) ∧
    calculate_spread_run [1, 3] [2, 2] = Except.error PyErr.indexError :=
  ⟨⟨by decide, by decide, by decide⟩,
    C5_degenerate_amended [1, 3] [2, 2] 2 (by decide) (by decide) (by decide)⟩

/-- C5 counterexample: on the degenerate input S1 = [1, 3], S2 = [2, 2]
(zero variance) the estimator does not fail with an EstimationError, and
it does not return a hedge ratio either: add_constant silently drops the
ones column for the nonzero-constant S2, and the program raises IndexError
at `model.params[1]`. -/
theorem C5_degenerate_cex :
    calculate_spread_run [1, 3] [2, 2] = Except.error PyErr.indexError := by
  decide

/-! ## Half-life guard: claim C6 -/

theorem pyround_nonpos (q : ℚ) (hq : q < 0) : pyround q ≤ 0 := by
  have hf : ⌊q⌋ < 0 := by
    have h1 : ((⌊q⌋ : ℤ) : ℚ) < 0 := lt_of_le_of_lt (Int.floor_le q) hq
    exact_mod_cast h1
  have hdef : pyround q =
      if q - (⌊q⌋ : ℚ) < 1/2 then ⌊q⌋
      else if 1/2 < q - (⌊q⌋ : ℚ) then ⌊q⌋ + 1
      else if ⌊q⌋ % 2 = 0 then ⌊q⌋ else ⌊q⌋ + 1 := rfl
  rw [hdef]
  split
  · omega
  · split
    · omega
    · split <;> omega

/-- C6 (amended): after the stationarity check, (i) whenever the fit
returns a mean-reversion coefficient and it is positive, the half-life is
`int(round())` of a negative number, hence non-positive, and the pair is
rejected by the `hl > 0` guard of the main loop — a recoverable per-pair
outcome that feeds no window forward; but the crash-freedom of the claim
fails on the degenerate cases: (ii) when the lagged spread is a nonzero
constant, add_constant drops the ones column and `model.params[1]` raises
an uncaught IndexError, and (iii) when the returned coefficient is exactly
zero, `int(round(-inf))` raises an uncaught OverflowError — crashes that
abort the whole run instead of rejecting the pair. -/
theorem C6_halflife_guard_amended (spread : List ℚ) :
    (∀ phi : ℚ, olsSlopeRun (retOf spread) (lagOf spread) = Except.ok phi →
      0 < phi → mainPairWindow spread = Except.ok none) ∧
    ((∀ v ∈ lagOf spread, v = (lagOf spread).headD 0) →
      lagOf spread ≠ [] → (lagOf spread).headD 0 ≠ 0 →
      mainPairWindow spread = Except.error PyErr.indexError) ∧
    (olsSlopeRun (retOf spread) (lagOf spread) = Except.ok 0 →
      mainPairWindow spread = Except.error PyErr.overflow) := by
  refine ⟨?_, ?_, ?_⟩
  · intro phi hok hphi
    have hne : phi ≠ 0 := ne_of_gt hphi
    have hlog : (0 : ℚ) < log2F := by
      rw [log2F]
      norm_num
    have hneg : -log2F / phi < 0 :=
      div_neg_of_neg_of_pos (neg_neg_of_pos hlog) hphi
    have hrnd : pyround (-log2F / phi) ≤ 0 := pyround_nonpos _ hneg
    simp only [mainPairWindow, half_life, hok, if_neg hne, Except.ok.injEq]
    rw [if_neg (by omega)]
  · intro hconst hne h0
    have hrun : olsSlopeRun (retOf spread) (lagOf spread) =
        Except.error PyErr.indexError := by
      rw [olsSlopeRun, if_neg hne, if_pos hconst, if_neg h0]
    simp only [mainPairWindow, half_life, hrun]
  · intro hok
    simp only [mainPairWindow, half_life, hok, eq_self_iff_true, if_true]

/-- C6 witness: conjunct (i) of the amended theorem applied to the spread
[0, 1, 3], whose lagged level [0, 1] is non-constant and whose fitted
coefficient is 1 > 0; the pair is rejected without being fed forward and
without an exception. -/
theorem C6_halflife_guard_witness :
    olsSlopeRun (retOf [0, 1, 3]) (lagOf [0, 1, 3]) = Except.ok 1 ∧
    mainPairWindow [0, 1, 3] = Except.ok none :=
  ⟨by decide, (C6_halflife_guard_amended [0, 1, 3]).1 1 (by decide) (by decide)⟩

/-- C6 counterexample: for the spread [5, 5, 5, 9] the lagged level is the
nonzero constant [5, 5, 5], so the regression cannot estimate a
mean-reversion coefficient and the half-life is undefined; the claim says
such a pair is rejected recoverably, but the code crashes instead:
add_constant drops the ones column and `model.params[1]` raises an
uncaught IndexError, aborting the run. -/
theorem C6_halflife_guard_cex :
    (∀ v ∈ lagOf [5, 5, 5, 9], v = 5) ∧
    mainPairWindow [5, 5, 5, 9] = Except.error PyErr.indexError := by
  constructor
  · decide
  · decide

/-! ## Pair selector: claim C9 -/

theorem bestFold_max (l : List BTResult) :
    ∀ cur : BTResult, cur.finalRet ≤ (bestFold cur l).finalRet ∧
      ∀ x ∈ l, x.finalRet ≤ (bestFold cur l).finalRet := by
  induction l with
  | nil =>
    intro cur
    exact ⟨le_refl _, by simp⟩
  | cons a rest ih =>
    intro cur
    by_cases hca : cur.finalRet < a.finalRet
    · have hbf : bestFold cur (a :: rest) = bestFold a rest := by
        simp [bestFold, hca]
      obtain ⟨h1, h2⟩ := ih a
      refine ⟨?_, ?_⟩
      · rw [hbf]
        exact le_trans (le_of_lt hca) h1
      · intro x hx
        rw [hbf]
        rcases List.mem_cons.mp hx with h | h
        · rw [h]
          exact h1
        · exact h2 x h
    · have hbf : bestFold cur (a :: rest) = bestFold cur rest := by
        simp [bestFold, hca]
      obtain ⟨h1, h2⟩ := ih cur
      refine ⟨?_, ?_⟩
      · rw [hbf]
        exact h1
      · intro x hx
        rw [hbf]
        rcases List.mem_cons.mp hx with h | h
        · rw [h]
          exact le_trans (le_of_not_lt hca) h1
        · exact h2 x h

theorem bestFold_first (l : List BTResult) :
    ∀ cur : BTResult, bestFold cur l = cur ∨
      ∃ i, i < l.length ∧ l.getD i dres = bestFold cur l ∧
        cur.finalRet < (bestFold cur l).finalRet ∧
        ∀ j, j < i → (l.getD j dres).finalRet < (bestFold cur l).finalRet := by
  induction l with
  | nil =>
    intro cur
    exact Or.inl rfl
  | cons a rest ih =>
    intro cur
    by_cases hca : cur.finalRet < a.finalRet
    · have hbf : bestFold cur (a :: rest) = bestFold a rest := by
        simp [bestFold, hca]
      rcases ih a with h | ⟨i, hi, heq, hlt, hfirst⟩
      · right
        refine ⟨0, by simp, ?_, ?_, ?_⟩
        · rw [hbf, h]
          rfl
        · rw [hbf, h]
          exact hca
        · intro j hj
          omega
      · right
        refine ⟨i + 1, by simpa using hi, ?_, ?_, ?_⟩
        · rw [hbf]
          simpa [List.getD_cons_succ] using heq
        · rw [hbf]
          exact lt_trans hca hlt
        · intro j hj
          rw [hbf]
          cases j with
          | zero => simpa [List.getD_cons_zero] using hlt
          | succ j' => simpa [List.getD_cons_succ] using hfirst j' (by omega)
    · have hbf : bestFold cur (a :: rest) = bestFold cur rest := by
        simp [bestFold, hca]
      rcases ih cur with h | ⟨i, hi, heq, hlt, hfirst⟩
      · left
        rw [hbf, h]
      · right
        refine ⟨i + 1, by simpa using hi, ?_, ?_, ?_⟩
        · rw [hbf]
          simpa [List.getD_cons_succ] using heq
        · rw [hbf]
          exact hlt
        · intro j hj
          rw [hbf]
          cases j with
          | zero =>
            simp only [List.getD_cons_zero]
            exact lt_of_le_of_lt (le_of_not_lt hca) hlt
          | succ j' => simpa [List.getD_cons_succ] using hfirst j' (by omega)

/-- C9 (amended): for a non-empty result list, `select_best` (the
`max(results, key=...)` of the main block) returns a result whose final
test-period return is maximal, and among all results attaining that
maximum it returns the FIRST one in iteration order: the half-life plays
no role in breaking ties. -/
theorem C9_selector_amended (rs : List BTResult) (r : BTResult)
    (h : select_best rs = some r) :
    (∀ x ∈ rs, x.finalRet ≤ r.finalRet) ∧
    ∃ i, i < rs.length ∧ rs.getD i dres = r ∧
      ∀ j, j < i → (rs.getD j dres).finalRet < r.finalRet := by
  cases rs with
  | nil => simp [select_best] at h
  | cons a rest =>
    have hr : bestFold a rest = r := by
      simpa [select_best] using h
    constructor
    · intro x hx
      rcases List.mem_cons.mp hx with hxa | hx'
      · rw [hxa, ← hr]
        exact (bestFold_max rest a).1
      · rw [← hr]
        exact (bestFold_max rest a).2 x hx'
    · rcases bestFold_first rest a with heq | ⟨i, hi, heq, hlt, hfirst⟩
      · refine ⟨0, by simp, ?_, ?_⟩
        · rw [List.getD_cons_zero, ← hr, heq]
        · intro j hj
          omega
      · refine ⟨i + 1, by simpa using hi, ?_, ?_⟩
        · rw [← hr]
          simpa [List.getD_cons_succ] using heq
        · intro j hj
          rw [← hr]
          cases j with
          | zero =>
            simp only [List.getD_cons_zero]
            exact hlt
          | succ j' => simpa [List.getD_cons_succ] using hfirst j' (by omega)

/-- C9 witness: the amended theorem applied to two results tied on final
return 10, where the first one (half-life 5) is selected. -/
theorem C9_selector_witness :
    select_best [⟨(0, 1), 5, 10⟩, ⟨(2, 3), 2, 10⟩] = some ⟨(0, 1), 5, 10⟩ ∧
    ∀ x ∈ ([⟨(0, 1), 5, 10⟩, ⟨(2, 3), 2, 10⟩] : List BTResult),
      x.finalRet ≤ (⟨(0, 1), 5, 10⟩ : BTResult).finalRet :=
  ⟨by decide,
    (C9_selector_amended [⟨(0, 1), 5, 10⟩, ⟨(2, 3), 2, 10⟩] ⟨(0, 1), 5, 10⟩ (by decide)).1⟩

/-- C9 counterexample: with two results tied on final return 10, the
selector returns the first one, whose half-life 5 is strictly longer than
the half-life 2 of the other tied result, so the selected pair is NOT one
with the shortest half-life among the tied pairs. -/
theorem C9_selector_cex :
    select_best [⟨(0, 1), 5, 10⟩, ⟨(2, 3), 2, 10⟩] = some ⟨(0, 1), 5, 10⟩ ∧
    (⟨(2, 3), 2, 10⟩ : BTResult).finalRet = (⟨(0, 1), 5, 10⟩ : BTResult).finalRet ∧
    (⟨(2, 3), 2, 10⟩ : BTResult).hl < (⟨(0, 1), 5, 10⟩ : BTResult).hl := by
  decide

/-! ## BH correction: claims C1 and C8 -/

theorem listMin_ge (c : ℚ) (hc : c ≤ 1) :
    ∀ l : List ℚ, (∀ x ∈ l, c ≤ x) → c ≤ listMin l
  | [] => fun _ => hc
  | [a] => fun h => h a (by simp)
  | a :: b :: rest => fun h =>
      le_min (h a (by simp))
        (listMin_ge c hc (b :: rest) (fun x hx => h x (List.mem_cons_of_mem a hx)))

theorem bhRank_lt_of_lt (ps : List ℚ) (k l : ℕ) (_hk : k < ps.length)
    (hl : l < ps.length) (hv : ps.getD l 0 < ps.getD k 0) :
    bhRank ps l < bhRank ps k := by
  classical
  have hBsub : (Finset.range l).filter (fun u => ps.getD u 0 = ps.getD l 0) ⊆
      ((Finset.range ps.length).filter (fun u => ps.getD u 0 = ps.getD l 0)).erase l := by
    intro u hu
    rw [Finset.mem_filter, Finset.mem_range] at hu
    rw [Finset.mem_erase, Finset.mem_filter, Finset.mem_range]
    exact ⟨by omega, by omega, hu.2⟩
  have hmemE : l ∈ (Finset.range ps.length).filter (fun u => ps.getD u 0 = ps.getD l 0) := by
    rw [Finset.mem_filter, Finset.mem_range]
    exact ⟨hl, rfl⟩
  have hB : ((Finset.range l).filter (fun u => ps.getD u 0 = ps.getD l 0)).card ≤
      ((Finset.range ps.length).filter (fun u => ps.getD u 0 = ps.getD l 0)).card - 1 := by
    calc ((Finset.range l).filter (fun u => ps.getD u 0 = ps.getD l 0)).card
        ≤ (((Finset.range ps.length).filter
            (fun u => ps.getD u 0 = ps.getD l 0)).erase l).card :=
          Finset.card_le_card hBsub
      _ = ((Finset.range ps.length).filter (fun u => ps.getD u 0 = ps.getD l 0)).card - 1 :=
          Finset.card_erase_of_mem hmemE
  have hE1 : 1 ≤ ((Finset.range ps.length).filter (fun u => ps.getD u 0 = ps.getD l 0)).card :=
    Finset.card_pos.mpr ⟨l, hmemE⟩
  have hdisj : Disjoint
      ((Finset.range ps.length).filter (fun u => ps.getD u 0 < ps.getD l 0))
      ((Finset.range ps.length).filter (fun u => ps.getD u 0 = ps.getD l 0)) := by
    rw [Finset.disjoint_left]
    intro u hu1 hu2
    rw [Finset.mem_filter] at hu1 hu2
    exact absurd hu2.2 (ne_of_lt hu1.2)
  have hsub : ((Finset.range ps.length).filter (fun u => ps.getD u 0 < ps.getD l 0)) ∪
      ((Finset.range ps.length).filter (fun u => ps.getD u 0 = ps.getD l 0)) ⊆
      (Finset.range ps.length).filter (fun u => ps.getD u 0 < ps.getD k 0) := by
    intro u hu
    rcases Finset.mem_union.mp hu with hu | hu <;>
      rw [Finset.mem_filter] at hu ⊢
    · exact ⟨hu.1, lt_trans hu.2 hv⟩
    · exact ⟨hu.1, lt_of_eq_of_lt hu.2 hv⟩
  have hcard : ((Finset.range ps.length).filter (fun u => ps.getD u 0 < ps.getD l 0)).card +
      ((Finset.range ps.length).filter (fun u => ps.getD u 0 = ps.getD l 0)).card ≤
      ((Finset.range ps.length).filter (fun u => ps.getD u 0 < ps.getD k 0)).card := by
    rw [← Finset.card_union_of_disjoint hdisj]
    exact Finset.card_le_card hsub
  have hAk : ((Finset.range ps.length).filter (fun u => ps.getD u 0 < ps.getD k 0)).card ≤
      bhRank ps k := Nat.le_add_right _ _
  unfold bhRank
  omega

theorem bhRank_lt_length (ps : List ℚ) (k : ℕ) (hk : k < ps.length) :
    bhRank ps k < ps.length := by
  classical
  have hBsub : (Finset.range k).filter (fun u => ps.getD u 0 = ps.getD k 0) ⊆
      ((Finset.range ps.length).filter (fun u => ps.getD u 0 = ps.getD k 0)).erase k := by
    intro u hu
    rw [Finset.mem_filter, Finset.mem_range] at hu
    rw [Finset.mem_erase, Finset.mem_filter, Finset.mem_range]
    exact ⟨by omega, by omega, hu.2⟩
  have hmemE : k ∈ (Finset.range ps.length).filter (fun u => ps.getD u 0 = ps.getD k 0) := by
    rw [Finset.mem_filter, Finset.mem_range]
    exact ⟨hk, rfl⟩
  have hB : ((Finset.range k).filter (fun u => ps.getD u 0 = ps.getD k 0)).card ≤
      ((Finset.range ps.length).filter (fun u => ps.getD u 0 = ps.getD k 0)).card - 1 := by
    calc ((Finset.range k).filter (fun u => ps.getD u 0 = ps.getD k 0)).card
        ≤ (((Finset.range ps.length).filter
            (fun u => ps.getD u 0 = ps.getD k 0)).erase k).card :=
          Finset.card_le_card hBsub
      _ = ((Finset.range ps.length).filter (fun u => ps.getD u 0 = ps.getD k 0)).card - 1 :=
          Finset.card_erase_of_mem hmemE
  have hE1 : 1 ≤ ((Finset.range ps.length).filter (fun u => ps.getD u 0 = ps.getD k 0)).card :=
    Finset.card_pos.mpr ⟨k, hmemE⟩
  have hdisj : Disjoint
      ((Finset.range ps.length).filter (fun u => ps.getD u 0 < ps.getD k 0))
      ((Finset.range ps.length).filter (fun u => ps.getD u 0 = ps.getD k 0)) := by
    rw [Finset.disjoint_left]
    intro u hu1 hu2
    rw [Finset.mem_filter] at hu1 hu2
    exact absurd hu2.2 (ne_of_lt hu1.2)
  have hcard : ((Finset.range ps.length).filter (fun u => ps.getD u 0 < ps.getD k 0)).card +
      ((Finset.range ps.length).filter (fun u => ps.getD u 0 = ps.getD k 0)).card ≤
      ps.length := by
    rw [← Finset.card_union_of_disjoint hdisj]
    calc (((Finset.range ps.length).filter (fun u => ps.getD u 0 < ps.getD k 0)) ∪
        ((Finset.range ps.length).filter (fun u => ps.getD u 0 = ps.getD k 0))).card
        ≤ (Finset.range ps.length).card :=
          Finset.card_le_card (Finset.union_subset (Finset.filter_subset _ _)
            (Finset.filter_subset _ _))
      _ = ps.length := Finset.card_range _
  unfold bhRank
  omega

/-- The BH adjusted p-value dominates the raw p-value whenever the raw
p-values are genuine probabilities in [0, 1]: each candidate in the suffix
minimum has a value at least as large (by rank monotonicity) scaled by a
factor `m / (rank + 1) ≥ 1`, and the clip at 1 also dominates. -/
theorem le_bhAdjusted (ps : List ℚ) (k : ℕ) (hk : k < ps.length)
    (hp : ∀ x ∈ ps, 0 ≤ x ∧ x ≤ 1) : ps.getD k 0 ≤ bhAdjusted ps k := by
  have hk1 : ps.getD k 0 ≤ 1 := (hp _ (getD_mem ps k 0 hk)).2
  rw [bhAdjusted]
  refine le_min hk1 (listMin_ge _ hk1 _ ?_)
  intro x hx
  obtain ⟨l, hlmem, rfl⟩ := List.mem_map.mp hx
  rw [List.mem_filter, List.mem_range] at hlmem
  obtain ⟨hlm, hrank⟩ := hlmem
  have hrank' : bhRank ps k ≤ bhRank ps l := of_decide_eq_true hrank
  have hvle : ps.getD k 0 ≤ ps.getD l 0 := by
    by_contra hcon
    have hlt : ps.getD l 0 < ps.getD k 0 := lt_of_not_le hcon
    exact absurd hrank' (Nat.not_le.mpr (bhRank_lt_of_lt ps k l hk hlm hlt))
  have hl0 : 0 ≤ ps.getD l 0 := (hp _ (getD_mem ps l 0 hlm)).1
  have hrlen : bhRank ps l + 1 ≤ ps.length := bhRank_lt_length ps l hlm
  have hpos : (0 : ℚ) < (bhRank ps l : ℚ) + 1 := by positivity
  rw [le_div_iff₀ hpos]
  calc ps.getD k 0 * ((bhRank ps l : ℚ) + 1)
      ≤ ps.getD l 0 * ((bhRank ps l : ℚ) + 1) :=
        mul_le_mul_of_nonneg_right hvle (le_of_lt hpos)
    _ ≤ ps.getD l 0 * (ps.length : ℚ) := by
        refine mul_le_mul_of_nonneg_left ?_ hl0
        exact_mod_cast hrlen
    _ = (ps.length : ℚ) * ps.getD l 0 := mul_comm _ _

/-- C1: every pair selected by `find_cointegrated_pairs` (those whose
Benjamini-Hochberg corrected p-value is strictly below the significance
level) has a raw Engle-Granger p-value strictly below that same level,
provided the raw p-values are genuine probabilities in [0, 1]: the
corrected acceptance set is a subset of the raw acceptance set. -/
theorem C1_bh_subset (pv : ℕ → ℕ → ℚ) (n : ℕ) (sig : ℚ)
    (hp : ∀ i j, 0 ≤ pv i j ∧ pv i j ≤ 1)
    (res : List (ℕ × ℕ)) (hok : find_cointegrated_pairs pv n sig = Except.ok res)
    (q : ℕ × ℕ) (hq : q ∈ res) : pv q.1 q.2 < sig := by
  rw [find_cointegrated_pairs] at hok
  by_cases h0 : ((pairIndices n).map (fun q => pv q.1 q.2)).length = 0
  · rw [if_pos h0] at hok
    exact absurd hok (by simp)
  · rw [if_neg h0, Except.ok.injEq] at hok
    rw [← hok] at hq
    obtain ⟨k, hkmem, hkq⟩ := List.mem_map.mp hq
    rw [List.mem_filter, List.mem_range] at hkmem
    obtain ⟨hklt, hksig⟩ := hkmem
    have hksig' : bhAdjusted ((pairIndices n).map (fun q => pv q.1 q.2)) k < sig :=
      of_decide_eq_true hksig
    have hkidx : k < (pairIndices n).length := by
      rw [List.length_map] at hklt
      exact hklt
    have hple := le_bhAdjusted ((pairIndices n).map (fun q => pv q.1 q.2)) k hklt ?_
    · have hraw : ((pairIndices n).map (fun q => pv q.1 q.2)).getD k 0 < sig :=
        lt_of_le_of_lt hple hksig'
      rw [getD_map_pq (pairIndices n) (fun q => pv q.1 q.2) k hkidx] at hraw
      rw [← hkq]
      exact hraw
    · intro x hx
      obtain ⟨a, _, rfl⟩ := List.mem_map.mp hx
      exact hp a.1 a.2

/-- The raw p-value oracle used by the C1 witness. -/
def pvW (i j : ℕ) : ℚ := if i = 0 ∧ j = 1 then 1/100 else 1/2

theorem pvW_bounds : ∀ i j, 0 ≤ pvW i j ∧ pvW i j ≤ 1 := by
  intro i j
  rw [pvW]
  split <;> norm_num

/-- C1 witness: with 3 instruments and raw p-values 1/100 for the pair
(0, 1) and 1/2 elsewhere, the screener at level 1/20 selects exactly
[(0, 1)] (its BH adjusted p-value is 3/100), and the theorem yields that
its raw p-value is below the level. -/
theorem C1_bh_subset_witness :
    find_cointegrated_pairs pvW 3 (1/20) = Except.ok [(0, 1)] ∧ pvW 0 1 < 1/20 :=
  ⟨by decide, C1_bh_subset pvW 3 (1/20) pvW_bounds [(0, 1)] (by decide) (0, 1) (by decide)⟩

/-- C8 (amended): with fewer than 2 instruments there are no pairs to
test, the p-value list handed to `multipletests` is empty, and
`multipletests` raises ZeroDivisionError (it computes `1.0 / ntests`
before dispatching on the correction method), so the screener propagates
an exception instead of returning an empty candidate set. -/
theorem C8_too_few_instruments_amended (pv : ℕ → ℕ → ℚ) (sig : ℚ) (n : ℕ)
    (hn : n ≤ 1) :
    find_cointegrated_pairs pv n sig = Except.error PyErr.zeroDivision := by
  have hidx : pairIndices n = [] := by
    interval_cases n <;> rfl
  rw [find_cointegrated_pairs, hidx]
  rfl

/-- C8 witness: the amended theorem applied to a 0-instrument panel. -/
theorem C8_too_few_instruments_witness :
    (0 : ℕ) ≤ 1 ∧
    find_cointegrated_pairs (fun _ _ => 1/3) 0 (1/20) = Except.error PyErr.zeroDivision :=
  ⟨by decide, C8_too_few_instruments_amended (fun _ _ => 1/3) (1/20) 0 (by decide)⟩

/-- C8 counterexample: on a panel with a single instrument the screener
does not return an empty candidate set: it raises ZeroDivisionError. -/
theorem C8_too_few_instruments_cex :
    find_cointegrated_pairs (fun _ _ => 1/2) 1 (1/20) = Except.error PyErr.zeroDivision := by
  rfl

end PairsTrading
